import Mathlib

/-!
Verification of the step-parsing / status-tracking core of the TOD4-SCS
workflow dashboard.  The Lean definitions below are a shallow embedding of
`parse_step`, `process_steps`, `extract_days`, `calculate_total_days`
(src/app.py) and of `save_checklist_status`, `load_checklist_status`,
`init_checklist_status`, `get_status_label`, `calculate_overall_progress`
(src/features.py).  Spreadsheet cells are modeled as `Option String`
(`none` = a missing/NaN cell); Python dicts as insertion-ordered
association lists; Python dict keys (which may be `int` or `str`) as
`Sum Nat String`; JSON persistence as a record of string-keyed lists,
reflecting that JSON object keys are always strings.
-/

/-! ## Python-style character and string helpers -/

/-- Whitespace as recognized by Python's `str.strip` / `str.split` / `\s`
(restricted to the ASCII whitespace actually occurring in the data). -/
def isPySpace (c : Char) : Bool :=
  c = ' ' || c = '\t' || c = '\n' || c = '\r' || c = '\x0b' || c = '\x0c'

def isDigitC (c : Char) : Bool :=
  '0' ≤ c && c ≤ '9'

def digitsToNat (l : List Char) : Nat :=
  l.foldl (fun a c => a * 10 + (c.toNat - 48)) 0

/-- `str.upper`, on the alphabet used by the source table (ASCII letters
plus the Vietnamese letters of the step marker). -/
def pyUpperChar (c : Char) : Char :=
  if 'a' ≤ c && c ≤ 'z' then Char.ofNat (c.toNat - 32)
  else if c = 'ư' then 'Ư'
  else if c = 'ớ' then 'Ớ'
  else if c = 'à' then 'À'
  else c

/-- `str.lower`, on the same alphabet. -/
def pyLowerChar (c : Char) : Char :=
  if 'A' ≤ c && c ≤ 'Z' then Char.ofNat (c.toNat + 32)
  else if c = 'Ư' then 'ư'
  else if c = 'Ớ' then 'ớ'
  else if c = 'À' then 'à'
  else c

/-- `str.strip`: drop leading and trailing whitespace. -/
def trimChars (l : List Char) : List Char :=
  ((l.dropWhile isPySpace).reverse.dropWhile isPySpace).reverse

def trimStr (s : String) : String :=
  String.mk (trimChars s.data)

/-- One pass of `str.split()`: cut on whitespace runs, dropping empties.
The accumulator keeps (finished words, current word reversed). -/
def splitWsStep (acc : List (List Char) × List Char) (c : Char) :
    List (List Char) × List Char :=
  if isPySpace c then
    match acc.2 with
    | [] => (acc.1, [])
    | w => (acc.1 ++ [w.reverse], [])
  else (acc.1, c :: acc.2)

def splitWs (l : List Char) : List (List Char) :=
  let r := l.foldl splitWsStep ([], [])
  match r.2 with
  | [] => r.1
  | w => r.1 ++ [w.reverse]

def joinSpace : List (List Char) → List Char
  | [] => []
  | [w] => w
  | w :: ws => w ++ ' ' :: joinSpace ws

/-- `' '.join(s.split())`: trim and collapse internal whitespace runs. -/
def collapseStr (s : String) : String :=
  String.mk (joinSpace (splitWs s.data))

def listStartsWith : List Char → List Char → Bool
  | [], _ => true
  | _ :: _, [] => false
  | p :: ps, c :: cs => p = c && listStartsWith ps cs

/-- Python's `needle in haystack` substring test. -/
def containsSub (needle : List Char) : List Char → Bool
  | [] => listStartsWith needle []
  | c :: rest => listStartsWith needle (c :: rest) || containsSub needle rest

/-! ## src/app.py : parse_step and process_steps -/

/-- One spreadsheet row after the loader's column cleanup: the code cell
`STT` plus six content cells.  `none` models a NaN cell. -/
structure Row where
  stt : Option String
  noiDung : Option String
  donVi : Option String
  canCu : Option String
  thoiGian : Option String
  canCuTienDo : Option String
  ghiChu : Option String
deriving DecidableEq

/-- The characters of the step-marker word `BƯỚC`. -/
def buocTok : List Char := ['B', 'Ư', 'Ớ', 'C']

/-- `re.search(r'BƯỚC\s*(\d+)', s)`: the first occurrence of the marker
word followed by optional whitespace and at least one digit. -/
def searchBuocNum : List Char → Option Nat
  | [] => none
  | c :: rest =>
    if listStartsWith buocTok (c :: rest) then
      let after := ((c :: rest).drop 4).dropWhile isPySpace
      let ds := after.takeWhile isDigitC
      if ds = [] then searchBuocNum rest else some (digitsToNat ds)
    else searchBuocNum rest

/-- The `(?:\.(\d+))?(?:\.(\d+))?` tail of the sub-step regex: how many
dot-then-digits groups match right after the step number (0, 1 or 2). -/
def dotGroupCount (l : List Char) : Nat :=
  match l with
  | '.' :: rest =>
    if rest.takeWhile isDigitC = [] then 0
    else
      match rest.dropWhile isDigitC with
      | '.' :: rest2 => if rest2.takeWhile isDigitC = [] then 1 else 2
      | _ => 1
  | _ => 0

/-- The classification core of `parse_step`, applied to the trimmed and
uppercased code cell. -/
def parseCode (u : List Char) : Option (Nat × String) :=
  if containsSub buocTok u then
    match searchBuocNum u with
    | some n => some (n, "step")
    | none => none
  else
    match u with
    | 'B' :: rest =>
      if rest.takeWhile isDigitC = [] then none
      else
        some (digitsToNat (rest.takeWhile isDigitC),
              "sub" ++ toString (dotGroupCount (rest.dropWhile isDigitC)))
    | _ => none

/-- `parse_step` (src/app.py:121-140) restricted to the step number and
level it yields; `none` stands for the `(None, None, None)` result. -/
def parse_step (stt : Option String) : Option (Nat × String) :=
  match stt with
  | none => none
  | some s => parseCode ((trimChars s.data).map pyUpperChar)

/-- How `process_steps` reacts to a row: the `if level == 'step' and
step_num` branch, the sub-step branch, or no effect at all. -/
inductive RowClass where
  | header (n : Nat)
  | sub (n : Nat) (lvl : String)
  | skip
deriving DecidableEq

def classify (r : Row) : RowClass :=
  match parse_step r.stt with
  | none => RowClass.skip
  | some (n, lvl) =>
    if lvl = "step" then (if n = 0 then RowClass.skip else RowClass.header n)
    else RowClass.sub n lvl

structure SubStep where
  code : String
  content : String
  don_vi : String
  can_cu : String
  thoi_gian : String
  can_cu_tien_do : String
  ghi_chu : String
  level : String
deriving DecidableEq

structure Step where
  title : String
  can_cu : String
  can_cu_tien_do : String
  substeps : List SubStep
deriving DecidableEq

/-- `str(cell).strip() if pd.notna(cell) else ''`. -/
def optTrim : Option String → String
  | none => ""
  | some t => trimStr t

/-- The fresh `steps[current_step] = {...}` record built on a header row. -/
def stepOfHeader (r : Row) (n : Nat) : Step :=
  { title := collapseStr (match r.noiDung with
      | none => "BƯỚC " ++ toString n
      | some t => trimStr t),
    can_cu := optTrim r.canCu,
    can_cu_tien_do := optTrim r.canCuTienDo,
    substeps := [] }

/-- The `substep_info` dict appended on an accepted sub-step row. -/
def subOfRow (r : Row) (lvl : String) : SubStep :=
  { code := trimStr (r.stt.getD ""),
    content := collapseStr (optTrim r.noiDung),
    don_vi := optTrim r.donVi,
    can_cu := optTrim r.canCu,
    thoi_gian := optTrim r.thoiGian,
    can_cu_tien_do := optTrim r.canCuTienDo,
    ghi_chu := optTrim r.ghiChu,
    level := lvl }

/-! ## Insertion-ordered association lists (Python dict semantics) -/

def alookup {α β : Type} [DecidableEq α] : List (α × β) → α → Option β
  | [], _ => none
  | p :: ps, k => if p.1 = k then some p.2 else alookup ps k

/-- `d[k] = v`: overwrite in place, else append (insertion order kept). -/
def ainsert {α β : Type} [DecidableEq α] : List (α × β) → α → β → List (α × β)
  | [], k, v => [(k, v)]
  | p :: ps, k, v => if p.1 = k then (k, v) :: ps else p :: ainsert ps k v

/-- Mutate the value stored under `k` in place, if present. -/
def aupdate {α β : Type} [DecidableEq α] : List (α × β) → α → (β → β) → List (α × β)
  | [], _, _ => []
  | p :: ps, k, f => if p.1 = k then (k, f p.2) :: ps else p :: aupdate ps k f

def akeys {α β : Type} (l : List (α × β)) : List α :=
  l.map Prod.fst

def acontains {α β : Type} [DecidableEq α] (l : List (α × β)) (k : α) : Bool :=
  (alookup l k).isSome

/-- The row loop of `process_steps` (src/app.py:152-189): `m` is the
`steps` dict, `cur` the `current_step` variable. -/
def procFold : List Row → List (Nat × Step) → Option Nat → List (Nat × Step)
  | [], m, _ => m
  | r :: rs, m, cur =>
    match classify r with
    | RowClass.header n => procFold rs (ainsert m n (stepOfHeader r n)) (some n)
    | RowClass.sub n lvl =>
      match cur with
      | some c =>
        if n = c ∧ c ≠ 0 then
          procFold rs
            (aupdate m c (fun st => { st with substeps := st.substeps ++ [subOfRow r lvl] }))
            cur
        else procFold rs m cur
      | none => procFold rs m cur
    | RowClass.skip => procFold rs m cur

def process_steps (rows : List Row) : List (Nat × Step) :=
  procFold rows [] none

/-! ## src/app.py : extract_days and calculate_total_days -/

def dayTok : List Char := ['n', 'g', 'à', 'y']

/-- First match of `re.findall(r'(\d+)\s*ngày', s)`: scan left to right
for a digit run followed by optional whitespace and the day token. -/
def findDayNum : List Char → Option Nat
  | [] => none
  | c :: rest =>
    if isDigitC c then
      let ds := (c :: rest).takeWhile isDigitC
      let after := ((c :: rest).dropWhile isDigitC).dropWhile isPySpace
      if listStartsWith dayTok after then some (digitsToNat ds)
      else findDayNum rest
    else findDayNum rest

/-- `extract_days` (src/app.py:191-201); `none` models a NaN argument. -/
def extract_days (text : Option String) : Nat :=
  match text with
  | none => 0
  | some s =>
    if s = "" then 0
    else
      match findDayNum (s.data.map pyLowerChar) with
      | some n => n
      | none => 0

/-- `calculate_total_days` (src/app.py:203-212). -/
def calculate_total_days (steps : List (Nat × Step)) : List (Nat × Nat) :=
  steps.map (fun p =>
    (p.1, (p.2.substeps.map (fun s => extract_days (some s.thoi_gian))).sum))

/-! ## src/features.py : the status store -/

/-- One `{'status': ..., 'notes': ...}` record. -/
structure Entry where
  status : String
  notes : String
deriving DecidableEq

/-- A Python dict key of the session maps: `int` step numbers or `str`
composite keys. -/
abbrev PKey := Sum Nat String

/-- How `json.dump` renders a dict key: ints are coerced to strings. -/
def pkeyStr : PKey → String
  | Sum.inl n => toString n
  | Sum.inr s => s

/-- The JSON record written to `checklist_status.json`. -/
structure StorageData where
  step_status : List (String × Entry)
  substep_status : List (String × Entry)
deriving DecidableEq

/-- The durable storage as `load_checklist_status` can find it. -/
inductive Storage where
  | absent
  | corrupt
  | good (d : StorageData)

/-- `save_checklist_status` (src/features.py:1389-1401): serialize both
session maps; JSON object keys are always strings. -/
def save_checklist_status (ss sub : List (PKey × Entry)) : StorageData :=
  { step_status := ss.map (fun p => (pkeyStr p.1, p.2)),
    substep_status := sub.map (fun p => (pkeyStr p.1, p.2)) }

/-- `load_checklist_status` (src/features.py:1403-1413): a missing or
unreadable file yields two empty maps; otherwise the JSON maps come back
string-keyed. -/
def load_checklist_status : Storage → List (PKey × Entry) × List (PKey × Entry)
  | Storage.absent => ([], [])
  | Storage.corrupt => ([], [])
  | Storage.good d =>
    (d.step_status.map (fun p => (Sum.inr p.1, p.2)),
     d.substep_status.map (fun p => (Sum.inr p.1, p.2)))

def defaultEntry : Entry :=
  { status := "not_started", notes := "" }

/-- `init_checklist_status` (src/features.py:1415-1448) on a fresh
session: load, then default-fill every step key (as an `int` key) and
every `f"{step_num}_{code}"` sub-step key not already present. -/
def init_checklist_status (steps : List (Nat × Step)) (stg : Storage) :
    List (PKey × Entry) × List (PKey × Entry) :=
  let loaded := load_checklist_status stg
  let ss := steps.foldl
    (fun acc p =>
      if acontains acc (Sum.inl p.1) then acc
      else acc ++ [(Sum.inl p.1, defaultEntry)])
    loaded.1
  let sub := steps.foldl
    (fun acc p =>
      p.2.substeps.foldl
        (fun acc2 s =>
          let k : PKey := Sum.inr (toString p.1 ++ "_" ++ s.code)
          if acontains acc2 k then acc2 else acc2 ++ [(k, defaultEntry)])
        acc)
    loaded.2
  (ss, sub)

/-- `get_status_label` (src/features.py:1450-1457): `status_map.get(s, s)`
falls back to the raw value on an unknown status. -/
def get_status_label (s : String) : String :=
  if s = "not_started" then "⏸️ Chưa thực hiện"
  else if s = "in_progress" then "🔄 Đang thực hiện"
  else if s = "completed" then "✅ Hoàn thành"
  else s

def countCompleted (ss : List (PKey × Entry)) : Nat :=
  (ss.filter (fun p => p.2.status == "completed")).length

/-! ### IEEE-754 double model for the progress percentage

`calculate_overall_progress` computes `int((completed / total) * 100)` in
Python: a correctly rounded binary64 division, a correctly rounded
binary64 multiplication by the exactly representable 100, and truncation
toward zero.  A positive double is modeled as a dyadic rational
`m * 2 ^ exp` with a 53-bit significand `m`; both operations round to 53
bits with round-half-to-even.  The exponent is unbounded: overflow and
subnormals, which would need counts beyond 2^1020 entries, are outside
this model's envelope. -/

/-- Bit length of `n` (0 for 0), with ample fuel (the counts and scaled
significands here stay far below 2^4400). -/
def natBitsAux : Nat → Nat → Nat
  | 0, _ => 0
  | f + 1, n => if n = 0 then 0 else natBitsAux f (n / 2) + 1

def natBits (n : Nat) : Nat :=
  natBitsAux 4400 n

/-- Round `x / y` to the nearest integer, ties to even (`y > 0`). -/
def rndDiv (x y : Nat) : Nat :=
  let q := x / y
  let r := x % y
  if 2 * r < y then q
  else if y < 2 * r then q + 1
  else if q % 2 = 0 then q else q + 1

/-- A nonnegative binary64 value `m * 2 ^ exp`, with `m = 0` or
`2 ^ 52 ≤ m < 2 ^ 53`. -/
structure PyFloat where
  m : Nat
  exp : Int
deriving DecidableEq

/-- Correctly rounded binary64 division `a / b` of two nonnegative ints
(Python true division). -/
def floatDivNat (a b : Nat) : PyFloat :=
  if a = 0 ∨ b = 0 then ⟨0, 0⟩
  else
    let s : Int := 52 - (natBits a : Int) + (natBits b : Int)
    let x := if 0 ≤ s then a * 2 ^ s.toNat else a
    let y := if 0 ≤ s then b else b * 2 ^ (-s).toNat
    if x / y < 2 ^ 52 then
      let m := rndDiv (2 * x) y
      if m = 2 ^ 53 then ⟨2 ^ 52, -s⟩ else ⟨m, -s - 1⟩
    else
      let m := rndDiv x y
      if m = 2 ^ 53 then ⟨2 ^ 52, -s + 1⟩ else ⟨m, -s⟩

/-- Correctly rounded binary64 multiplication by the exact constant 100. -/
def floatMul100 (x : PyFloat) : PyFloat :=
  if x.m = 0 then ⟨0, 0⟩
  else
    let mm := 100 * x.m
    let b := natBits mm
    if b ≤ 53 then ⟨mm, x.exp⟩
    else
      let s := b - 53
      let m2 := rndDiv mm (2 ^ s)
      if m2 = 2 ^ 53 then ⟨2 ^ 52, x.exp + (s : Int) + 1⟩
      else ⟨m2, x.exp + (s : Int)⟩

/-- Python `int(...)` on a nonnegative double: truncation toward zero. -/
def floatTrunc (x : PyFloat) : Nat :=
  if 0 ≤ x.exp then x.m * 2 ^ x.exp.toNat else x.m / 2 ^ (-x.exp).toNat

/-- `int((completed / total) * 100)` through the binary64 pipeline. -/
def pyProgressValue (completed total : Nat) : Nat :=
  floatTrunc (floatMul100 (floatDivNat completed total))

/-- `calculate_overall_progress` (src/features.py:1459-1473): completed
entries of the whole `step_status` map over the model's step count,
through Python's float pipeline `int((completed / total) * 100)`. -/
def calculate_overall_progress (steps : List (Nat × Step))
    (ss : List (PKey × Entry)) : Nat :=
  if steps.length = 0 then 0
  else pyProgressValue (countCompleted ss) steps.length

/-! ## Spec-side definitions (used to compare the code with the spec's
words, never to replace it) -/

/-- Does a session-map key name a step of the model (an `int` key whose
number is a step of `steps`)? -/
def isModelKey (steps : List (Nat × Step)) : PKey → Bool
  | Sum.inl k => acontains steps k
  | Sum.inr _ => false

/-- Spec-side overall progress as claim C4 words it: only completed
entries keyed by a step of the model are counted. -/
def specOverallProgress (steps : List (Nat × Step))
    (ss : List (PKey × Entry)) : Nat :=
  if steps.length = 0 then 0
  else
    (100 * (ss.filter (fun p =>
      isModelKey steps p.1 && p.2.status == "completed")).length) / steps.length

/-- Claim C4's counting rule (only entries for steps of the model) fed
through the code's binary64 arithmetic. -/
def specOverallProgressFloat (steps : List (Nat × Step))
    (ss : List (PKey × Entry)) : Nat :=
  if steps.length = 0 then 0
  else
    pyProgressValue
      ((ss.filter (fun p =>
        isModelKey steps p.1 && p.2.status == "completed")).length)
      steps.length

/-- Spec-side row consumption for one step number `n`, following section
4.1 of the spec word for word: keep a current open step; a header row
opens its step (resetting the collected list when it re-opens `n`); a
sub-step row is appended exactly when its embedded number agrees with the
open step and that step is `n`; everything else is dropped silently. -/
def specCollectSubs (n : Nat) : List Row → List SubStep → Option Nat → List SubStep
  | [], acc, _ => acc
  | r :: rs, acc, cur =>
    match classify r with
    | RowClass.header m => specCollectSubs n rs (if m = n then [] else acc) (some m)
    | RowClass.sub j lvl =>
      if cur = some j ∧ j = n then specCollectSubs n rs (acc ++ [subOfRow r lvl]) cur
      else specCollectSubs n rs acc cur
    | RowClass.skip => specCollectSubs n rs acc cur

/-! ## Analysis helpers for process_steps -/

/-- The last header row for step `n` together with the rows after it. -/
def lastHeaderSplit (n : Nat) : List Row → Option (Row × List Row)
  | [] => none
  | r :: rs =>
    match lastHeaderSplit n rs with
    | some p => some p
    | none => if classify r = RowClass.header n then some (r, rs) else none

/-- The sub-steps collected for step `n` from a row segment in which `n`
is the open step, up to the next header row. -/
def segSubs (n : Nat) : List Row → List SubStep
  | [] => []
  | r :: rs =>
    match classify r with
    | RowClass.header _ => []
    | RowClass.sub m lvl =>
      if m = n ∧ n ≠ 0 then subOfRow r lvl :: segSubs n rs else segSubs n rs
    | RowClass.skip => segSubs n rs

/-! ## Concrete fixtures for counterexamples and witnesses -/

def blankStep : Step :=
  { title := "T", can_cu := "", can_cu_tien_do := "", substeps := [] }

def rowOfCells (stt noiDung donVi thoiGian : Option String) : Row :=
  { stt := stt, noiDung := noiDung, donVi := donVi,
    canCu := none, thoiGian := thoiGian, canCuTienDo := none, ghiChu := none }

def hdrRowC1 : Row := rowOfCells (some "BƯỚC 5") (some "Khởi đầu") none none

def bRowC1 : Row := rowOfCells (some "B5") (some "nội dung") none none

def rowsC1 : List Row := [hdrRowC1, bRowC1]

def subC1 : SubStep := subOfRow bRowC1 "sub0"

def stC1 : Step := { stepOfHeader hdrRowC1 5 with substeps := [subC1] }

def rowsC6 : List Row :=
  [rowOfCells (some "B1.1") (some "mồ côi") none none,
   rowOfCells (some "BƯỚC 1") (some "một") none none,
   rowOfCells (some "B1.1") (some "a") none none,
   rowOfCells (some "B2.1") (some "lạc bước") none none,
   rowOfCells (some "BƯỚC 2") (some "hai") none none,
   rowOfCells (some "B2.2") (some "b") none none]

def stW6 : Step :=
  { stepOfHeader (rowsC6.get ⟨1, by decide⟩) 1 with
    substeps := [subOfRow (rowsC6.get ⟨2, by decide⟩) "sub1"] }

def hdrC7b : Row := rowOfCells (some "BƯỚC 2") (some "tiêu đề mới") none none

def rowsC7 : List Row :=
  [rowOfCells (some "BƯỚC 2") (some "tiêu đề cũ") none none,
   rowOfCells (some "B2.1") (some "x") none none,
   hdrC7b]

def hdrC10 : Row := rowOfCells (some "BƯỚC 5") (some "lần hai") none none

def preC10 : List Row :=
  [rowOfCells (some "BƯỚC 5") (some "lần một") none none,
   rowOfCells (some "B5.1") (some "cũ") none none]

def postC10 : List Row :=
  [rowOfCells (some "B5.2") (some "mới") none none]

def rowsC8 : List Row :=
  [rowOfCells (some "BƯỚC 1") (some "một") none none,
   rowOfCells (some "B1.1") (some "nd") (some "A  B") (some " 03 ngày ")]

def sC8 : SubStep := subOfRow (rowsC8.get ⟨1, by decide⟩) "sub1"

def stC8 : Step :=
  { stepOfHeader (rowsC8.get ⟨0, by decide⟩) 1 with substeps := [sC8] }

def eC2 : Entry := { status := "completed", notes := "ok" }

def ssC2 : List (PKey × Entry) := [(Sum.inl 1, eC2)]

def eC3 : Entry := { status := "completed", notes := "x" }

def steps123 : List (Nat × Step) := [(1, blankStep), (2, blankStep), (3, blankStep)]

def stgC3 : Storage :=
  Storage.good { step_status := [("1", eC3)], substep_status := [] }

def completedE : Entry := { status := "completed", notes := "" }

def steps1 : List (Nat × Step) := [(1, blankStep)]

def steps3 : List (Nat × Step) := [(1, blankStep), (2, blankStep), (3, blankStep)]

def steps4 : List (Nat × Step) :=
  [(1, blankStep), (2, blankStep), (3, blankStep), (4, blankStep)]

def storeX : List (PKey × Entry) :=
  [(Sum.inr "99", completedE), (Sum.inl 1, completedE)]

def store4 : List (PKey × Entry) :=
  [(Sum.inl 1, completedE), (Sum.inl 2, defaultEntry),
   (Sum.inl 3, defaultEntry), (Sum.inl 4, defaultEntry)]

def store3 : List (PKey × Entry) :=
  [(Sum.inl 1, completedE), (Sum.inl 2, completedE), (Sum.inl 3, completedE)]

def steps100 : List (Nat × Step) :=
  (List.range 100).map (fun i => (i + 1, blankStep))

def store29 : List (PKey × Entry) :=
  (List.range 100).map (fun i =>
    (Sum.inl (i + 1), if i < 29 then completedE else defaultEntry))

def dC9 : StorageData :=
  { step_status := [("1", { status := "bogus", notes := "" })], substep_status := [] }

def stepD : Step :=
  { title := "T", can_cu := "", can_cu_tien_do := "",
    substeps :=
      [subOfRow (rowOfCells (some "B1.1") (some "a") none (some "05 ngày")) "sub1",
       subOfRow (rowOfCells (some "B1.2") (some "b") none (some "")) "sub1",
       subOfRow (rowOfCells (some "B1.3") (some "c") none (some "10 ngày")) "sub1"] }

/-! ## Association-list lemmas -/

theorem alookup_ainsert_self {α β : Type} [DecidableEq α]
    (m : List (α × β)) (k : α) (v : β) :
    alookup (ainsert m k v) k = some v := by
  induction m with
  | nil => simp [ainsert, alookup]
  | cons p ps ih =>
    by_cases h : p.1 = k
    · simp [ainsert, alookup, h]
    · simp [ainsert, alookup, h, ih]

theorem alookup_ainsert_ne {α β : Type} [DecidableEq α]
    (m : List (α × β)) (k k' : α) (v : β) (h : k ≠ k') :
    alookup (ainsert m k v) k' = alookup m k' := by
  induction m with
  | nil => simp [ainsert, alookup, h]
  | cons p ps ih =>
    by_cases hp : p.1 = k
    · simp [ainsert, alookup, hp, h]
    · simp [ainsert, alookup, hp, ih]

theorem alookup_aupdate_self {α β : Type} [DecidableEq α]
    (m : List (α × β)) (k : α) (f : β → β) :
    alookup (aupdate m k f) k = (alookup m k).map f := by
  induction m with
  | nil => simp [aupdate, alookup]
  | cons p ps ih =>
    by_cases hp : p.1 = k
    · simp [aupdate, alookup, hp]
    · simp [aupdate, alookup, hp, ih]

theorem alookup_aupdate_ne {α β : Type} [DecidableEq α]
    (m : List (α × β)) (k k' : α) (f : β → β) (h : k ≠ k') :
    alookup (aupdate m k f) k' = alookup m k' := by
  induction m with
  | nil => simp [aupdate]
  | cons p ps ih =>
    by_cases hp : p.1 = k
    · simp [aupdate, alookup, hp, h]
    · simp [aupdate, alookup, hp, ih]

@[simp]
theorem akeys_nil {α β : Type} : akeys ([] : List (α × β)) = [] := rfl

@[simp]
theorem akeys_cons {α β : Type} (p : α × β) (l : List (α × β)) :
    akeys (p :: l) = p.1 :: akeys l := rfl

theorem akeys_aupdate {α β : Type} [DecidableEq α]
    (m : List (α × β)) (k : α) (f : β → β) :
    akeys (aupdate m k f) = akeys m := by
  induction m with
  | nil => rfl
  | cons p ps ih =>
    simp only [aupdate]
    by_cases hp : p.1 = k
    · rw [if_pos hp]
      simp only [akeys_cons]
      rw [hp]
    · rw [if_neg hp]
      simp only [akeys_cons, ih]

theorem mem_akeys_ainsert {α β : Type} [DecidableEq α]
    (m : List (α × β)) (k x : α) (v : β) :
    x ∈ akeys (ainsert m k v) ↔ x = k ∨ x ∈ akeys m := by
  induction m with
  | nil => simp [ainsert]
  | cons p ps ih =>
    simp only [ainsert]
    by_cases hp : p.1 = k
    · rw [if_pos hp]
      simp only [akeys_cons, List.mem_cons, hp]
      tauto
    · rw [if_neg hp]
      simp only [akeys_cons, List.mem_cons, ih]
      tauto

theorem nodup_akeys_ainsert {α β : Type} [DecidableEq α]
    (m : List (α × β)) (k : α) (v : β) (h : (akeys m).Nodup) :
    (akeys (ainsert m k v)).Nodup := by
  induction m with
  | nil => simp [ainsert]
  | cons p ps ih =>
    simp only [ainsert]
    by_cases hp : p.1 = k
    · rw [if_pos hp]
      simp only [akeys_cons] at h ⊢
      rw [← hp]
      exact h
    · rw [if_neg hp]
      simp only [akeys_cons] at h ⊢
      rcases List.nodup_cons.mp h with ⟨hnot, hps⟩
      refine List.nodup_cons.mpr ⟨?_, ih hps⟩
      intro hmem
      rcases (mem_akeys_ainsert ps k p.1 v).mp hmem with h1 | h1
      · exact hp h1
      · exact hnot h1

/-! ## Classification lemmas -/

theorem dotGroupCount_le (l : List Char) : dotGroupCount l ≤ 2 := by
  unfold dotGroupCount
  split
  · split
    · omega
    · split
      · split
        · omega
        · omega
      · omega
  · omega

theorem parseCode_level (u : List Char) (n : Nat) (lvl : String)
    (h : parseCode u = some (n, lvl)) :
    lvl = "step" ∨ ∃ d, d ≤ 2 ∧ lvl = "sub" ++ toString d := by
  unfold parseCode at h
  split at h
  · split at h
    · simp only [Option.some.injEq, Prod.mk.injEq] at h
      exact Or.inl h.2.symm
    · simp at h
  · split at h
    · split at h
      · simp at h
      · simp only [Option.some.injEq, Prod.mk.injEq] at h
        exact Or.inr ⟨_, dotGroupCount_le _, h.2.symm⟩
    · simp at h

theorem parse_step_level (o : Option String) (n : Nat) (lvl : String)
    (h : parse_step o = some (n, lvl)) :
    lvl = "step" ∨ ∃ d, d ≤ 2 ∧ lvl = "sub" ++ toString d := by
  unfold parse_step at h
  match o with
  | none => simp at h
  | some s => exact parseCode_level _ _ _ h

theorem classify_header_iff (r : Row) (n : Nat) :
    classify r = RowClass.header n ↔
      parse_step r.stt = some (n, "step") ∧ n ≠ 0 := by
  unfold classify
  cases hp : parse_step r.stt with
  | none => simp
  | some v =>
    obtain ⟨m, lvl⟩ := v
    dsimp only
    by_cases hl : lvl = "step"
    · subst hl
      by_cases hm : m = 0
      · subst hm
        simp only [if_pos rfl, if_pos (Eq.refl "step")]
        constructor
        · intro h; simp at h
        · rintro ⟨h1, h2⟩
          simp only [Option.some.injEq, Prod.mk.injEq] at h1
          exact absurd h1.1.symm h2
      · rw [if_pos rfl, if_neg hm]
        constructor
        · intro h
          simp only [RowClass.header.injEq] at h
          subst h
          exact ⟨rfl, hm⟩
        · rintro ⟨h1, _⟩
          simp only [Option.some.injEq, Prod.mk.injEq] at h1
          rw [h1.1]
    · rw [if_neg hl]
      constructor
      · intro h; simp at h
      · rintro ⟨h1, _⟩
        simp only [Option.some.injEq, Prod.mk.injEq] at h1
        exact absurd h1.2 hl

theorem classify_header_ne_zero (r : Row) (n : Nat)
    (h : classify r = RowClass.header n) : n ≠ 0 :=
  ((classify_header_iff r n).mp h).2

theorem classify_sub_parse (r : Row) (n : Nat) (lvl : String)
    (h : classify r = RowClass.sub n lvl) :
    parse_step r.stt = some (n, lvl) ∧ lvl ≠ "step" := by
  unfold classify at h
  cases hp : parse_step r.stt with
  | none => rw [hp] at h; simp at h
  | some v =>
    obtain ⟨m, l0⟩ := v
    rw [hp] at h
    dsimp only at h
    by_cases hl : l0 = "step"
    · rw [if_pos hl] at h
      by_cases hm : m = 0
      · rw [if_pos hm] at h; simp at h
      · rw [if_neg hm] at h; simp at h
    · rw [if_neg hl] at h
      simp only [RowClass.sub.injEq] at h
      obtain ⟨h1, h2⟩ := h
      subst h1
      subst h2
      exact ⟨rfl, hl⟩

/-! ## Step equations for procFold, segSubs and lastHeaderSplit -/

theorem procFold_nil (m : List (Nat × Step)) (cur : Option Nat) :
    procFold [] m cur = m := rfl

theorem procFold_cons_header {r : Row} {n : Nat} (h : classify r = RowClass.header n)
    (rs : List Row) (m : List (Nat × Step)) (cur : Option Nat) :
    procFold (r :: rs) m cur = procFold rs (ainsert m n (stepOfHeader r n)) (some n) := by
  simp only [procFold, h]

theorem procFold_cons_sub_acc {r : Row} {n : Nat} {lvl : String}
    (h : classify r = RowClass.sub n lvl) (rs : List Row) (m : List (Nat × Step))
    (c : Nat) (hacc : n = c ∧ c ≠ 0) :
    procFold (r :: rs) m (some c) =
      procFold rs
        (aupdate m c (fun st => { st with substeps := st.substeps ++ [subOfRow r lvl] }))
        (some c) := by
  simp only [procFold, h, if_pos hacc]

theorem procFold_cons_sub_drop {r : Row} {n : Nat} {lvl : String}
    (h : classify r = RowClass.sub n lvl) (rs : List Row) (m : List (Nat × Step))
    (cur : Option Nat) (hdrop : ∀ c, cur = some c → ¬(n = c ∧ c ≠ 0)) :
    procFold (r :: rs) m cur = procFold rs m cur := by
  cases cur with
  | none => simp only [procFold, h]
  | some c => simp only [procFold, h, if_neg (hdrop c rfl)]

theorem procFold_cons_skip {r : Row} (h : classify r = RowClass.skip)
    (rs : List Row) (m : List (Nat × Step)) (cur : Option Nat) :
    procFold (r :: rs) m cur = procFold rs m cur := by
  simp only [procFold, h]

@[simp]
theorem segSubs_nil (n : Nat) : segSubs n [] = [] := rfl

theorem segSubs_cons_header {r : Row} {k : Nat} (h : classify r = RowClass.header k)
    (n : Nat) (rs : List Row) : segSubs n (r :: rs) = [] := by
  simp only [segSubs, h]

theorem segSubs_cons_sub_acc {r : Row} {lvl : String} {n : Nat}
    (h : classify r = RowClass.sub n lvl) (hn : n ≠ 0) (rs : List Row) :
    segSubs n (r :: rs) = subOfRow r lvl :: segSubs n rs := by
  simp only [segSubs, h]
  simp [hn]

theorem segSubs_cons_sub_drop {r : Row} {j : Nat} {lvl : String} {n : Nat}
    (h : classify r = RowClass.sub j lvl) (hne : ¬(j = n ∧ n ≠ 0)) (rs : List Row) :
    segSubs n (r :: rs) = segSubs n rs := by
  simp only [segSubs, h, if_neg hne]

theorem segSubs_cons_skip {r : Row} (h : classify r = RowClass.skip)
    (n : Nat) (rs : List Row) : segSubs n (r :: rs) = segSubs n rs := by
  simp only [segSubs, h]

theorem lastHeaderSplit_cons (n : Nat) (r : Row) (rs : List Row) :
    lastHeaderSplit n (r :: rs) =
      match lastHeaderSplit n rs with
      | some p => some p
      | none => if classify r = RowClass.header n then some (r, rs) else none := rfl

theorem lastHeaderSplit_none_cons {n : Nat} {r : Row} {rs : List Row}
    (h : lastHeaderSplit n (r :: rs) = none) :
    lastHeaderSplit n rs = none ∧ classify r ≠ RowClass.header n := by
  rw [lastHeaderSplit_cons] at h
  cases h1 : lastHeaderSplit n rs with
  | some p => rw [h1] at h; simp at h
  | none =>
    rw [h1] at h
    refine ⟨rfl, ?_⟩
    intro hc
    rw [if_pos hc] at h
    simp at h

/-! ## Characterization of procFold lookups -/

/-- If no header row for `n` occurs in `rows`, processing them can only
append the subs of the open segment to an entry `n` already in `m`. -/
theorem procFold_lookup_nohdr (n : Nat) (rows : List Row) :
    lastHeaderSplit n rows = none →
    ∀ (m : List (Nat × Step)) (cur : Option Nat),
      alookup (procFold rows m cur) n =
        (alookup m n).map (fun st =>
          if cur = some n ∧ n ≠ 0 then
            { st with substeps := st.substeps ++ segSubs n rows }
          else st) := by
  induction rows with
  | nil =>
    intro _ m cur
    rw [procFold_nil]
    cases halk : alookup m n with
    | none => rfl
    | some st =>
      simp only [Option.map_some']
      split
      · simp
      · rfl
  | cons r rs ih =>
    intro hsplit m cur
    obtain ⟨h1, hc⟩ := lastHeaderSplit_none_cons hsplit
    cases hcr : classify r with
    | header k =>
      have hkn : k ≠ n := by
        intro hh
        subst hh
        exact hc hcr
      rw [procFold_cons_header hcr, ih h1, alookup_ainsert_ne _ _ _ _ hkn,
          segSubs_cons_header hcr]
      cases halk : alookup m n with
      | none => rfl
      | some st =>
        have hcond1 : ¬((some k : Option Nat) = some n ∧ n ≠ 0) := by
          rintro ⟨hh, _⟩
          exact hkn (Option.some.inj hh)
        simp only [Option.map_some', if_neg hcond1]
        split
        · simp
        · rfl
    | sub j lvl =>
      cases cur with
      | none =>
        rw [procFold_cons_sub_drop hcr rs m none (by intro c hh; simp at hh), ih h1]
        have hfalse : ¬((none : Option Nat) = some n ∧ n ≠ 0) := by
          rintro ⟨hh, _⟩
          simp at hh
        cases halk : alookup m n with
        | none => rfl
        | some st => simp only [Option.map_some', if_neg hfalse]
      | some c =>
        by_cases haccp : j = c ∧ c ≠ 0
        · rw [procFold_cons_sub_acc hcr rs m c haccp, ih h1]
          obtain ⟨hjc, hc0⟩ := haccp
          subst hjc
          by_cases hjn : j = n
          · subst hjn
            rw [alookup_aupdate_self, segSubs_cons_sub_acc hcr hc0 rs]
            cases halk : alookup m j with
            | none => rfl
            | some st =>
              simp only [Option.map_some']
              simp [hc0, List.append_assoc]
          · rw [alookup_aupdate_ne _ _ _ _ hjn,
               segSubs_cons_sub_drop hcr (fun hh => hjn hh.1) rs]
        · rw [procFold_cons_sub_drop hcr rs m (some c)
            (by intro c' hh; rw [← Option.some.inj hh]; exact haccp), ih h1]
          by_cases hcn : ((some c : Option Nat) = some n ∧ n ≠ 0)
          · obtain ⟨hcn', hn0⟩ := hcn
            have hceq : c = n := Option.some.inj hcn'
            subst hceq
            rw [segSubs_cons_sub_drop hcr haccp rs]
          · cases halk : alookup m n with
            | none => rfl
            | some st =>
              simp only [Option.map_some', if_neg hcn]
    | skip =>
      rw [procFold_cons_skip hcr, ih h1, segSubs_cons_skip hcr]

/-- After the last header row for `n`, the entry for `n` is exactly that
header's fresh record plus the subs of the following open segment. -/
theorem procFold_lookup_hdr (n : Nat) (rows : List Row) (h : Row) (rest : List Row) :
    lastHeaderSplit n rows = some (h, rest) →
    ∀ (m : List (Nat × Step)) (cur : Option Nat),
      alookup (procFold rows m cur) n =
        some { stepOfHeader h n with substeps := segSubs n rest } := by
  induction rows with
  | nil =>
    intro hsplit
    simp [lastHeaderSplit] at hsplit
  | cons r rs ih =>
    intro hsplit m cur
    rw [lastHeaderSplit_cons] at hsplit
    cases h1 : lastHeaderSplit n rs with
    | some p =>
      rw [h1] at hsplit
      have hp : p = (h, rest) := Option.some.inj hsplit
      subst hp
      cases hcr : classify r with
      | header k =>
        rw [procFold_cons_header hcr]
        exact ih h1 _ _
      | sub j lvl =>
        cases cur with
        | none =>
          rw [procFold_cons_sub_drop hcr rs m none (by intro c hh; simp at hh)]
          exact ih h1 _ _
        | some c =>
          by_cases hacc : j = c ∧ c ≠ 0
          · rw [procFold_cons_sub_acc hcr rs m c hacc]
            exact ih h1 _ _
          · rw [procFold_cons_sub_drop hcr rs m (some c)
              (by intro c' hh; rw [← Option.some.inj hh]; exact hacc)]
            exact ih h1 _ _
      | skip =>
        rw [procFold_cons_skip hcr]
        exact ih h1 _ _
    | none =>
      rw [h1] at hsplit
      by_cases hc : classify r = RowClass.header n
      · rw [if_pos hc] at hsplit
        have e1 : r = h := congrArg Prod.fst (Option.some.inj hsplit)
        have e2 : rs = rest := congrArg Prod.snd (Option.some.inj hsplit)
        subst e1
        subst e2
        rw [procFold_cons_header hc]
        have hn0 : n ≠ 0 := classify_header_ne_zero r n hc
        rw [procFold_lookup_nohdr n rs h1, alookup_ainsert_self]
        simp only [Option.map_some', if_pos (And.intro rfl hn0)]
        simp [stepOfHeader]
        intro h0
        exact absurd h0 hn0
      · rw [if_neg hc] at hsplit
        simp at hsplit

/-- Lookup in the finished model: keyed by the last header's number, with
title and bases from that header and the subs of its trailing segment. -/
theorem process_steps_lookup (rows : List Row) (n : Nat) :
    alookup (process_steps rows) n =
      match lastHeaderSplit n rows with
      | some p => some { stepOfHeader p.1 n with substeps := segSubs n p.2 }
      | none => none := by
  cases hsplit : lastHeaderSplit n rows with
  | some p =>
    obtain ⟨h, rest⟩ := p
    exact procFold_lookup_hdr n rows h rest hsplit [] none
  | none =>
    show alookup (procFold rows [] none) n = none
    rw [procFold_lookup_nohdr n rows hsplit]
    rfl

theorem procFold_keys_nodup (rows : List Row) :
    ∀ (m : List (Nat × Step)) (cur : Option Nat), (akeys m).Nodup →
      (akeys (procFold rows m cur)).Nodup := by
  induction rows with
  | nil => intro m cur hh; exact hh
  | cons r rs ih =>
    intro m cur hh
    cases hcr : classify r with
    | header k =>
      rw [procFold_cons_header hcr]
      exact ih _ _ (nodup_akeys_ainsert m k _ hh)
    | sub j lvl =>
      cases cur with
      | none =>
        rw [procFold_cons_sub_drop hcr rs m none (by intro c h2; simp at h2)]
        exact ih _ _ hh
      | some c =>
        by_cases hacc : j = c ∧ c ≠ 0
        · rw [procFold_cons_sub_acc hcr rs m c hacc]
          refine ih _ _ ?_
          rw [akeys_aupdate]
          exact hh
        · rw [procFold_cons_sub_drop hcr rs m (some c)
            (by intro c' h2; rw [← Option.some.inj h2]; exact hacc)]
          exact ih _ _ hh
    | skip =>
      rw [procFold_cons_skip hcr]
      exact ih _ _ hh

theorem process_steps_keys_nodup (rows : List Row) :
    (akeys (process_steps rows)).Nodup :=
  procFold_keys_nodup rows [] none List.nodup_nil

theorem lastHeaderSplit_isSome_iff (n : Nat) (rows : List Row) :
    (lastHeaderSplit n rows).isSome = true ↔
      ∃ r, r ∈ rows ∧ classify r = RowClass.header n := by
  induction rows with
  | nil => simp [lastHeaderSplit]
  | cons r rs ih =>
    rw [lastHeaderSplit_cons]
    cases h1 : lastHeaderSplit n rs with
    | some p =>
      simp only [Option.isSome_some, true_iff]
      obtain ⟨r', hr', hcr'⟩ := ih.mp (by rw [h1]; rfl)
      exact ⟨r', List.mem_cons_of_mem r hr', hcr'⟩
    | none =>
      by_cases hc : classify r = RowClass.header n
      · rw [if_pos hc]
        simp only [Option.isSome_some, true_iff]
        exact ⟨r, List.mem_cons_self r rs, hc⟩
      · rw [if_neg hc]
        constructor
        · intro hh
          simp at hh
        · rintro ⟨r', hr', hcr'⟩
          rcases List.mem_cons.mp hr' with h2 | h2
          · subst h2
            exact absurd hcr' hc
          · have h3 := ih.mpr ⟨r', h2, hcr'⟩
            rw [h1] at h3
            simp at h3

theorem lastHeaderSplit_some (n : Nat) (rows : List Row) (h : Row) (rest : List Row) :
    lastHeaderSplit n rows = some (h, rest) →
      classify h = RowClass.header n ∧ h ∈ rows ∧ ∀ x, x ∈ rest → x ∈ rows := by
  induction rows with
  | nil => intro hh; simp [lastHeaderSplit] at hh
  | cons r rs ih =>
    intro hh
    rw [lastHeaderSplit_cons] at hh
    cases h1 : lastHeaderSplit n rs with
    | some p =>
      rw [h1] at hh
      have hp : p = (h, rest) := Option.some.inj hh
      subst hp
      obtain ⟨ha, hb, hsub⟩ := ih h1
      exact ⟨ha, List.mem_cons_of_mem r hb, fun x hx => List.mem_cons_of_mem r (hsub x hx)⟩
    | none =>
      rw [h1] at hh
      by_cases hc : classify r = RowClass.header n
      · rw [if_pos hc] at hh
        have e1 : r = h := congrArg Prod.fst (Option.some.inj hh)
        have e2 : rs = rest := congrArg Prod.snd (Option.some.inj hh)
        subst e1
        subst e2
        exact ⟨hc, List.mem_cons_self r rs, fun x hx => List.mem_cons_of_mem r hx⟩
      · rw [if_neg hc] at hh
        simp at hh

theorem segSubs_mem_origin (n : Nat) (rows : List Row) (s : SubStep) :
    s ∈ segSubs n rows →
    ∃ r, r ∈ rows ∧ ∃ lvl, classify r = RowClass.sub n lvl ∧ s = subOfRow r lvl := by
  induction rows with
  | nil => intro hh; simp at hh
  | cons r rs ih =>
    intro hh
    cases hcr : classify r with
    | header k =>
      rw [segSubs_cons_header hcr] at hh
      simp at hh
    | sub j lvl =>
      by_cases hcond : j = n ∧ n ≠ 0
      · obtain ⟨hjn, hn0⟩ := hcond
        subst hjn
        rw [segSubs_cons_sub_acc hcr hn0 rs] at hh
        rcases List.mem_cons.mp hh with he | ht
        · exact ⟨r, List.mem_cons_self r rs, lvl, hcr, he⟩
        · obtain ⟨r', hr', l', hc', he'⟩ := ih ht
          exact ⟨r', List.mem_cons_of_mem r hr', l', hc', he'⟩
      · rw [segSubs_cons_sub_drop hcr hcond rs] at hh
        obtain ⟨r', hr', l', hc', he'⟩ := ih hh
        exact ⟨r', List.mem_cons_of_mem r hr', l', hc', he'⟩
    | skip =>
      rw [segSubs_cons_skip hcr] at hh
      obtain ⟨r', hr', l', hc', he'⟩ := ih hh
      exact ⟨r', List.mem_cons_of_mem r hr', l', hc', he'⟩

/-! ## The spec-side collector agrees with the code -/

theorem specCollect_cons_header {r : Row} {m : Nat} (h : classify r = RowClass.header m)
    (n : Nat) (rs : List Row) (acc : List SubStep) (cur : Option Nat) :
    specCollectSubs n (r :: rs) acc cur =
      specCollectSubs n rs (if m = n then [] else acc) (some m) := by
  simp only [specCollectSubs, h]

theorem specCollect_cons_sub_acc {r : Row} {j : Nat} {lvl : String}
    (h : classify r = RowClass.sub j lvl) (n : Nat) (rs : List Row)
    (acc : List SubStep) (cur : Option Nat) (hacc : cur = some j ∧ j = n) :
    specCollectSubs n (r :: rs) acc cur =
      specCollectSubs n rs (acc ++ [subOfRow r lvl]) cur := by
  simp only [specCollectSubs, h, if_pos hacc]

theorem specCollect_cons_sub_drop {r : Row} {j : Nat} {lvl : String}
    (h : classify r = RowClass.sub j lvl) (n : Nat) (rs : List Row)
    (acc : List SubStep) (cur : Option Nat) (hne : ¬(cur = some j ∧ j = n)) :
    specCollectSubs n (r :: rs) acc cur = specCollectSubs n rs acc cur := by
  simp only [specCollectSubs, h, if_neg hne]

theorem specCollect_cons_skip {r : Row} (h : classify r = RowClass.skip)
    (n : Nat) (rs : List Row) (acc : List SubStep) (cur : Option Nat) :
    specCollectSubs n (r :: rs) acc cur = specCollectSubs n rs acc cur := by
  simp only [specCollectSubs, h]

theorem specCollect_nohdr (n : Nat) (hn : n ≠ 0) (rows : List Row) :
    lastHeaderSplit n rows = none →
    ∀ (acc : List SubStep) (cur : Option Nat),
      specCollectSubs n rows acc cur =
        if cur = some n then acc ++ segSubs n rows else acc := by
  induction rows with
  | nil =>
    intro _ acc cur
    simp only [specCollectSubs, segSubs_nil]
    split
    · rw [List.append_nil]
    · rfl
  | cons r rs ih =>
    intro hsplit acc cur
    obtain ⟨h1, hc⟩ := lastHeaderSplit_none_cons hsplit
    cases hcr : classify r with
    | header k =>
      have hkn : k ≠ n := by
        intro hh
        subst hh
        exact hc hcr
      rw [specCollect_cons_header hcr, if_neg hkn, ih h1, segSubs_cons_header hcr]
      have hsome : (some k : Option Nat) ≠ some n := by
        intro hh
        exact hkn (Option.some.inj hh)
      rw [if_neg hsome]
      split
      · rw [List.append_nil]
      · rfl
    | sub j lvl =>
      by_cases hacc : cur = some j ∧ j = n
      · obtain ⟨hcur, hjn⟩ := hacc
        subst hjn
        subst hcur
        rw [specCollect_cons_sub_acc hcr j rs acc (some j) ⟨rfl, rfl⟩, ih h1,
            segSubs_cons_sub_acc hcr hn rs]
        simp [List.append_assoc]
      · rw [specCollect_cons_sub_drop hcr n rs acc cur hacc, ih h1]
        by_cases hcur : cur = some n
        · rw [if_pos hcur, if_pos hcur]
          have hjn : j ≠ n := by
            intro hh
            subst hh
            exact hacc ⟨hcur, rfl⟩
          rw [segSubs_cons_sub_drop hcr (fun hh => hjn hh.1) rs]
        · rw [if_neg hcur, if_neg hcur]
    | skip =>
      rw [specCollect_cons_skip hcr, ih h1, segSubs_cons_skip hcr]

theorem specCollect_hdr (n : Nat) (rows : List Row) (h : Row) (rest : List Row) :
    lastHeaderSplit n rows = some (h, rest) →
    ∀ (acc : List SubStep) (cur : Option Nat),
      specCollectSubs n rows acc cur = segSubs n rest := by
  induction rows with
  | nil =>
    intro hsplit
    simp [lastHeaderSplit] at hsplit
  | cons r rs ih =>
    intro hsplit acc cur
    rw [lastHeaderSplit_cons] at hsplit
    cases h1 : lastHeaderSplit n rs with
    | some p =>
      rw [h1] at hsplit
      have hp : p = (h, rest) := Option.some.inj hsplit
      subst hp
      cases hcr : classify r with
      | header k =>
        rw [specCollect_cons_header hcr]
        exact ih h1 _ _
      | sub j lvl =>
        by_cases hacc : cur = some j ∧ j = n
        · rw [specCollect_cons_sub_acc hcr n rs acc cur hacc]
          exact ih h1 _ _
        · rw [specCollect_cons_sub_drop hcr n rs acc cur hacc]
          exact ih h1 _ _
      | skip =>
        rw [specCollect_cons_skip hcr]
        exact ih h1 _ _
    | none =>
      rw [h1] at hsplit
      by_cases hc : classify r = RowClass.header n
      · rw [if_pos hc] at hsplit
        have e1 : r = h := congrArg Prod.fst (Option.some.inj hsplit)
        have e2 : rs = rest := congrArg Prod.snd (Option.some.inj hsplit)
        subst e1
        subst e2
        have hn0 : n ≠ 0 := classify_header_ne_zero r n hc
        rw [specCollect_cons_header hc, if_pos rfl,
            specCollect_nohdr n hn0 rs h1 [] (some n), if_pos rfl]
        rw [List.nil_append]
      · rw [if_neg hc] at hsplit
        simp at hsplit

theorem process_steps_lookup_none (rows : List Row) (n : Nat)
    (h : lastHeaderSplit n rows = none) : alookup (process_steps rows) n = none := by
  show alookup (procFold rows [] none) n = none
  rw [procFold_lookup_nohdr n rows h]
  rfl

theorem process_steps_lookup_some (rows : List Row) (n : Nat) (p : Row × List Row)
    (h : lastHeaderSplit n rows = some p) :
    alookup (process_steps rows) n
      = some { stepOfHeader p.1 n with substeps := segSubs n p.2 } :=
  procFold_lookup_hdr n rows p.1 p.2 h [] none

/-- When every step-status key belongs to the model, the code's count of
all completed entries agrees with the spec-side restricted count. -/
theorem filter_completed_restrict (steps : List (Nat × Step)) (ss : List (PKey × Entry)) :
    (∀ p, p ∈ ss → isModelKey steps p.1 = true) →
    (ss.filter (fun p => isModelKey steps p.1 && p.2.status == "completed")).length
      = (ss.filter (fun p => p.2.status == "completed")).length := by
  induction ss with
  | nil => intro _; rfl
  | cons p ps ih =>
    intro h
    have hk := h p (List.mem_cons_self p ps)
    have htail := fun q hq => h q (List.mem_cons_of_mem p hq)
    rw [List.filter_cons, List.filter_cons, hk, Bool.true_and]
    by_cases hst : (p.2.status == "completed") = true
    · rw [if_pos hst, if_pos hst]
      simp only [List.length_cons]
      rw [ih htail]
    · rw [if_neg hst, if_neg hst]
      exact ih htail

/-! ## Claim theorems -/

/-- Claim C1, counterexample: the code cell `"B5"` (letter + integer, no
dot-group) under the open step 5 IS classified as a sub-step and does
contribute a SubStep, with level `"sub0"` (depth 0, not 1 or 2), refuting
the claim that such rows are rejected. -/
theorem nodot_row_contributes_substep :
    (alookup (process_steps rowsC1) 5).map
        (fun st => st.substeps.map (fun s => (s.code, s.level)))
      = some [("B5", "sub0")] := by
  decide

/-- Claim C1 (amended): every SubStep of the parsed model originates from
a row classified as a sub-step with the same embedded number and level;
the level is `"sub" ++ d` where `d` is the number of dot-groups matched by
the pattern, which is 0, 1 or 2 (0 included: a dotless `B<num>` code is
accepted, not rejected); the trimmed, originally-cased code is carried in
the SubStep via `subOfRow`. -/
theorem substep_level_depth_amended (rows : List Row) (n : Nat) (st : Step) (s : SubStep)
    (h1 : alookup (process_steps rows) n = some st) (h2 : s ∈ st.substeps) :
    ∃ r, r ∈ rows ∧ classify r = RowClass.sub n s.level ∧ s = subOfRow r s.level ∧
      ∃ d, d ≤ 2 ∧ s.level = "sub" ++ toString d := by
  cases hsplit : lastHeaderSplit n rows with
  | none =>
    rw [process_steps_lookup_none rows n hsplit] at h1
    exact absurd h1 (by simp)
  | some p =>
    rw [process_steps_lookup_some rows n p hsplit] at h1
    have hst : st = { stepOfHeader p.1 n with substeps := segSubs n p.2 } :=
      (Option.some.inj h1).symm
    have hsubs : s ∈ segSubs n p.2 := by
      rw [hst] at h2
      exact h2
    obtain ⟨r, hr, lvl, hcr, he⟩ := segSubs_mem_origin n p.2 s hsubs
    obtain ⟨hhc, hhm, hsubset⟩ := lastHeaderSplit_some n rows p.1 p.2 hsplit
    have hrin : r ∈ rows := hsubset r hr
    have hlvl : s.level = lvl := by
      rw [he]
      rfl
    obtain ⟨hparse, hnstep⟩ := classify_sub_parse r n lvl hcr
    rcases parse_step_level r.stt n lvl hparse with hstep | ⟨d, hd, hform⟩
    · exact absurd hstep hnstep
    · refine ⟨r, hrin, ?_, ?_, d, hd, ?_⟩
      · rw [hlvl]
        exact hcr
      · rw [hlvl]
        exact he
      · rw [hlvl]
        exact hform

/-- Witness for the amended claim C1 at the concrete rows of the
counterexample. -/
theorem substep_level_depth_amended_witness :
    ∃ r, r ∈ rowsC1 ∧ classify r = RowClass.sub 5 subC1.level ∧
      subC1 = subOfRow r subC1.level ∧ ∃ d, d ≤ 2 ∧ subC1.level = "sub" ++ toString d :=
  substep_level_depth_amended rowsC1 5 stC1 subC1 (by decide) (by decide)

/-- Claim C2 (code bug): persisting a step-status map keyed by the Python
int `1` and restoring it yields a map keyed by the JSON string `"1"`; the
int key is gone, so the restored map is not equal in content to the saved
one and the int-keyed lookup fails. -/
theorem save_load_int_keys_stringified :
    (load_checklist_status (Storage.good (save_checklist_status ssC2 []))).1
        = [(Sum.inr "1", eC2)] ∧
    alookup (load_checklist_status (Storage.good (save_checklist_status ssC2 []))).1
        (Sum.inl 1) = none ∧
    (load_checklist_status (Storage.good (save_checklist_status ssC2 []))).1 ≠ ssC2 := by
  refine ⟨by decide, by decide, by decide⟩

/-- Claim C3 (code bug): initializing against a model with step keys
{1, 2, 3} from storage holding only key "1" produces FOUR entries: the
restored string-keyed entry plus int-keyed defaults for 1, 2 and 3 — the
program's int key 1 is defaulted instead of keeping the stored state.
Absent or corrupt storage still initializes, with defaults only. -/
theorem init_defaults_int_keys_despite_storage :
    (init_checklist_status steps123 stgC3).1
        = [(Sum.inr "1", eC3), (Sum.inl 1, defaultEntry),
           (Sum.inl 2, defaultEntry), (Sum.inl 3, defaultEntry)] ∧
    alookup (init_checklist_status steps123 stgC3).1 (Sum.inl 1) = some defaultEntry ∧
    defaultEntry.status ≠ eC3.status ∧
    (init_checklist_status steps123 Storage.absent).1
        = [(Sum.inl 1, defaultEntry), (Sum.inl 2, defaultEntry), (Sum.inl 3, defaultEntry)] ∧
    (init_checklist_status steps123 Storage.corrupt).1
        = [(Sum.inl 1, defaultEntry), (Sum.inl 2, defaultEntry), (Sum.inl 3, defaultEntry)] := by
  refine ⟨by decide, by decide, by decide, by decide, by decide⟩

/-- Claim C4, counterexample: with a one-step model and a status map
holding a completed entry for the stale key "99" besides the completed
entry for step 1, the code reports 200, while the claim's formula (count
only entries for steps of the model) gives 100. -/
theorem overall_progress_counts_stale_keys :
    calculate_overall_progress steps1 storeX = 200 ∧
    specOverallProgress steps1 storeX = 100 ∧ (200 : Nat) ≠ 100 := by
  refine ⟨by decide, by decide, by decide⟩

/-- Claim C4 (amended): overall progress is `int((c / t) * 100)` computed
in binary64 float arithmetic, where `c` is the completed count of the
WHOLE step-status map (retained non-model keys included) and `t` the
model's step count; 0 on an empty model.  On the spec's examples the
float pipeline agrees with exact truncation (4 steps 1 completed → 25,
3 of 3 → 100), but not everywhere: 29 completed of 100 model steps gives
28, one below the exact integer-truncated ratio 29.  Whenever every
status key belongs to the model, the code coincides with the claim's
counting rule fed through the same float arithmetic. -/
theorem overall_progress_amended :
    (∀ ss, calculate_overall_progress [] ss = 0) ∧
    calculate_overall_progress steps4 store4 = 25 ∧
    calculate_overall_progress steps3 store3 = 100 ∧
    calculate_overall_progress steps100 store29 = 28 ∧
    specOverallProgress steps100 store29 = 29 ∧
    (∀ (steps : List (Nat × Step)) (ss : List (PKey × Entry)),
      (∀ p, p ∈ ss → isModelKey steps p.1 = true) →
      calculate_overall_progress steps ss = specOverallProgressFloat steps ss) := by
  refine ⟨fun ss => rfl, by decide, by decide, by decide, by decide, ?_⟩
  intro steps ss h
  unfold calculate_overall_progress specOverallProgressFloat countCompleted
  by_cases hlen : steps.length = 0
  · rw [if_pos hlen, if_pos hlen]
  · rw [if_neg hlen, if_neg hlen, filter_completed_restrict steps ss h]

/-- Witness for the amended claim C4. -/
theorem overall_progress_amended_witness :
    calculate_overall_progress [] store4 = 0 ∧
    calculate_overall_progress steps4 store4 = specOverallProgressFloat steps4 store4 :=
  ⟨overall_progress_amended.1 store4,
   overall_progress_amended.2.2.2.2.2 steps4 store4 (by intro p hp; fin_cases hp <;> decide)⟩

/-- Claim C5 (confirmed): duration extraction returns the first integer
followed, after optional whitespace, by the day token (28 for "28 ngày",
7 for "07 ngày làm việc"), 0 on None, empty or pattern-free text; a
step's total is the sum of its sub-step durations ([5,0,10] → 15) and is
always ≥ 0. -/
theorem duration_extraction_spec :
    extract_days none = 0 ∧
    extract_days (some "") = 0 ∧
    extract_days (some "28 ngày") = 28 ∧
    extract_days (some "07 ngày làm việc") = 7 ∧
    extract_days (some "không có thời hạn cụ thể") = 0 ∧
    calculate_total_days [(1, stepD)] = [(1, 15)] ∧
    (∀ (steps : List (Nat × Step)) (p : Nat × Nat),
      p ∈ calculate_total_days steps → 0 ≤ p.2) := by
  refine ⟨by decide, by decide, by decide, by decide, by decide, by decide, ?_⟩
  intro steps p _
  exact Nat.zero_le _

/-- Witness for claim C5's quantified conjunct. -/
theorem duration_extraction_spec_witness :
    0 ≤ ((1 : Nat), (15 : Nat)).2 :=
  duration_extraction_spec.2.2.2.2.2.2 [(1, stepD)] (1, 15) (by decide)

/-- Claim C6 (confirmed): each step's sub-step list is exactly the
result of the spec's row consumption — sub-step rows whose embedded
number matches the currently open step are appended in source order;
rows before any header or with a mismatched number create nothing. -/
theorem substeps_follow_open_step (rows : List Row) (n : Nat) (st : Step)
    (h : alookup (process_steps rows) n = some st) :
    st.substeps = specCollectSubs n rows [] none := by
  cases hsplit : lastHeaderSplit n rows with
  | none =>
    rw [process_steps_lookup_none rows n hsplit] at h
    exact absurd h (by simp)
  | some p =>
    rw [process_steps_lookup_some rows n p hsplit] at h
    have hst : st = { stepOfHeader p.1 n with substeps := segSubs n p.2 } :=
      (Option.some.inj h).symm
    have hsub : st.substeps = segSubs n p.2 := by rw [hst]
    rw [hsub]
    exact (specCollect_hdr n rows p.1 p.2 hsplit [] none).symm

/-- Witness for claim C6 at concrete rows containing an orphaned sub-step
row before any header and a mismatched sub-step row. -/
theorem substeps_follow_open_step_witness :
    stW6.substeps = specCollectSubs 1 rowsC6 [] none :=
  substeps_follow_open_step rowsC6 1 stW6 (by decide)

/-- Claim C7 (confirmed): a step number is a key of the output exactly
when some row parses as a header with that (nonzero) number; keys are
unique even with repeated headers; the kept title and basis fields come
from the last header row for that number. -/
theorem headers_unique_last_wins (rows : List Row) (n : Nat) :
    ((alookup (process_steps rows) n).isSome = true ↔
      ∃ r, r ∈ rows ∧ parse_step r.stt = some (n, "step") ∧ n ≠ 0) ∧
    (akeys (process_steps rows)).Nodup ∧
    (∀ h rest st, lastHeaderSplit n rows = some (h, rest) →
      alookup (process_steps rows) n = some st →
      st.title = (stepOfHeader h n).title ∧ st.can_cu = (stepOfHeader h n).can_cu ∧
      st.can_cu_tien_do = (stepOfHeader h n).can_cu_tien_do) := by
  refine ⟨⟨?_, ?_⟩, process_steps_keys_nodup rows, ?_⟩
  · intro hh
    obtain ⟨st, hst⟩ := Option.isSome_iff_exists.mp hh
    cases hsplit : lastHeaderSplit n rows with
    | none =>
      rw [process_steps_lookup_none rows n hsplit] at hst
      exact absurd hst (by simp)
    | some p =>
      have hs := (lastHeaderSplit_isSome_iff n rows).mp (by rw [hsplit]; rfl)
      obtain ⟨r, hr, hcr⟩ := hs
      obtain ⟨hp, h0⟩ := (classify_header_iff r n).mp hcr
      exact ⟨r, hr, hp, h0⟩
  · rintro ⟨r, hr, hp, h0⟩
    have hcr := (classify_header_iff r n).mpr ⟨hp, h0⟩
    have hsome := (lastHeaderSplit_isSome_iff n rows).mpr ⟨r, hr, hcr⟩
    obtain ⟨p, hsplit⟩ := Option.isSome_iff_exists.mp hsome
    rw [process_steps_lookup_some rows n p hsplit]
    rfl
  · intro h rest st hsplit hlk
    rw [process_steps_lookup_some rows n (h, rest) hsplit] at hlk
    have hst := Option.some.inj hlk
    rw [← hst]
    exact ⟨rfl, rfl, rfl⟩

/-- Witness for claim C7 at rows where the header for step 2 appears
twice: step 2 exists in the model and carries the second header's title. -/
theorem headers_unique_last_wins_witness :
    (alookup (process_steps rowsC7) 2).isSome = true ∧
    (alookup (process_steps rowsC7) 2).map Step.title = some "tiêu đề mới" :=
  ⟨(headers_unique_last_wins rowsC7 2).1.mpr ⟨hdrC7b, by decide, by decide, by decide⟩,
   by decide⟩

/-- Claim C8, counterexample: the responsible-unit cell "A  B" of an
accepted sub-step row is kept with its doubled internal space — only
trimmed, not whitespace-collapsed to "A B" as the claim requires. -/
theorem donvi_not_collapsed :
    (alookup (process_steps rowsC8) 1).map (fun st => st.substeps.map (fun s => s.don_vi))
        = some ["A  B"] ∧
    collapseStr (trimStr "A  B") = "A B" ∧ ("A  B" : String) ≠ "A B" := by
  refine ⟨by decide, by decide, by decide⟩

/-- Claim C8 (amended): in every accepted sub-step, a blank or missing
cell yields the empty string; the content field is trimmed AND
whitespace-collapsed, while the other five fields (responsible unit,
legal basis, duration text, progress basis, note) are only trimmed. -/
theorem field_normalization_amended (rows : List Row) (n : Nat) (st : Step) (s : SubStep)
    (h1 : alookup (process_steps rows) n = some st) (h2 : s ∈ st.substeps) :
    ∃ r, r ∈ rows ∧
      s.content = collapseStr (optTrim r.noiDung) ∧
      s.don_vi = optTrim r.donVi ∧
      s.can_cu = optTrim r.canCu ∧
      s.thoi_gian = optTrim r.thoiGian ∧
      s.can_cu_tien_do = optTrim r.canCuTienDo ∧
      s.ghi_chu = optTrim r.ghiChu := by
  cases hsplit : lastHeaderSplit n rows with
  | none =>
    rw [process_steps_lookup_none rows n hsplit] at h1
    exact absurd h1 (by simp)
  | some p =>
    rw [process_steps_lookup_some rows n p hsplit] at h1
    have hst : st = { stepOfHeader p.1 n with substeps := segSubs n p.2 } :=
      (Option.some.inj h1).symm
    have hsubs : s ∈ segSubs n p.2 := by
      rw [hst] at h2
      exact h2
    obtain ⟨r, hr, lvl, hcr, he⟩ := segSubs_mem_origin n p.2 s hsubs
    obtain ⟨hhc, hhm, hsubset⟩ := lastHeaderSplit_some n rows p.1 p.2 hsplit
    refine ⟨r, hsubset r hr, ?_, ?_, ?_, ?_, ?_, ?_⟩ <;> rw [he] <;> rfl

/-- Witness for the amended claim C8 at the counterexample rows. -/
theorem field_normalization_amended_witness :
    ∃ r, r ∈ rowsC8 ∧
      sC8.content = collapseStr (optTrim r.noiDung) ∧
      sC8.don_vi = optTrim r.donVi ∧
      sC8.can_cu = optTrim r.canCu ∧
      sC8.thoi_gian = optTrim r.thoiGian ∧
      sC8.can_cu_tien_do = optTrim r.canCuTienDo ∧
      sC8.ghi_chu = optTrim r.ghiChu :=
  field_normalization_amended rowsC8 1 stC8 sC8 (by decide) (by decide)

/-- Claim C9, counterexample: a persisted entry with the out-of-enum
state "bogus" is loaded verbatim into the in-memory store — neither
rejected nor coerced to not_started — and `get_status_label` just echoes
the raw value. -/
theorem invalid_state_loaded_verbatim :
    (load_checklist_status (Storage.good dC9)).1
        = [(Sum.inr "1", { status := "bogus", notes := "" })] ∧
    ("bogus" : String) ≠ "not_started" ∧ ("bogus" : String) ≠ "in_progress" ∧
    ("bogus" : String) ≠ "completed" ∧ get_status_label "bogus" = "bogus" := by
  refine ⟨by decide, by decide, by decide, by decide, by decide⟩

/-- Claim C9 (amended): loading performs no validation — every persisted
state value, including values outside the three-value enum, enters the
in-memory store unchanged, and `get_status_label` returns any unknown
value as its own label. -/
theorem invalid_state_passthrough_amended (d : StorageData) (s : String)
    (h1 : s ≠ "not_started") (h2 : s ≠ "in_progress") (h3 : s ≠ "completed") :
    (load_checklist_status (Storage.good d)).1
        = d.step_status.map (fun p => (Sum.inr p.1, p.2)) ∧
    get_status_label s = s := by
  refine ⟨rfl, ?_⟩
  unfold get_status_label
  rw [if_neg h1, if_neg h2, if_neg h3]

/-- Witness for the amended claim C9. -/
theorem invalid_state_passthrough_amended_witness :
    (load_checklist_status (Storage.good dC9)).1
        = dC9.step_status.map (fun p => (Sum.inr p.1, p.2)) ∧
    get_status_label "bogus" = "bogus" :=
  invalid_state_passthrough_amended dC9 "bogus" (by decide) (by decide) (by decide)

/-- Claim C10 (confirmed): a repeated header row for `n` (the last one,
with no later header for `n`) replaces the whole entry: the final Step
for `n` is that header's fresh record whose sub-steps come only from the
rows after it, so everything collected under `n` earlier is discarded. -/
theorem repeated_header_resets_substeps (pre : List Row) (h : Row) (post : List Row)
    (n : Nat) (hh : classify h = RowClass.header n)
    (hpost : lastHeaderSplit n post = none) :
    alookup (process_steps (pre ++ h :: post)) n
      = some { stepOfHeader h n with substeps := segSubs n post } := by
  have hsplit : lastHeaderSplit n (pre ++ h :: post) = some (h, post) := by
    induction pre with
    | nil =>
      rw [List.nil_append, lastHeaderSplit_cons, hpost]
      rw [if_pos hh]
    | cons a pre2 ih =>
      rw [List.cons_append, lastHeaderSplit_cons, ih]
  exact procFold_lookup_hdr n _ h post hsplit [] none

/-- Witness for claim C10: a second header for step 5 after a sub-step
was collected under the first. -/
theorem repeated_header_resets_substeps_witness :
    alookup (process_steps (preC10 ++ hdrC10 :: postC10)) 5
      = some { stepOfHeader hdrC10 5 with substeps := segSubs 5 postC10 } :=
  repeated_header_resets_substeps preC10 hdrC10 postC10 5 (by decide) (by decide)
